import Mathlib

/-!
Verification of the temporal file-index logic of `pansat.download.providers`.

Shallow embedding conventions:

* Naive Python `datetime` values are modelled as `Nat` seconds since an epoch;
  `timedelta(days=1)` is `86400` seconds, and subtraction tests such as
  `(t1 - t).total_seconds() > 0.0` become `t < t1`.
* The pair `(t.year, int(t.strftime("%j")))` used by the source to key
  `get_files` is in bijection with the epoch-day number `t / 86400`, so the
  abstract primitive `get_files(year, day)` is modelled as a function of the
  single day key `dayOf t = t / 86400`.
* Filenames form an arbitrary type `α` with decidable equality; the Product
  collaborator's `name_to_date` is a field of the provider.
* Fallible Python code (list indexing that can raise `IndexError`,
  `list.index` that can raise `ValueError`, an undefined loop variable that
  raises `NameError`) is modelled with `Option`: `none` is a raised exception.
-/

namespace Pansat

/-- Seconds in one day: Python's `timedelta(days=1).total_seconds()`. -/
def secondsPerDay : Nat := 86400

/-- Calendar-day key of a timestamp; stands for the `(year, julian day)` pair
the source computes via `t.year` and `t.strftime("%j")`. -/
def dayOf (t : Nat) : Nat := t / secondsPerDay

/-- A `DataProvider` instance as used by the generic query methods: the
abstract day-listing primitive `get_files` together with the bound Product's
`name_to_date` timestamp decoder. -/
structure Provider (α : Type) where
  get_files : Nat → List α
  name_to_date : α → Nat

variable {α : Type}

/-- Embeds `DataProvider.get_preceeding_file`.  Source:
`t = name_to_date(filename)`; `files = get_files(year, day)` of `t`'s day;
`i = files.index(filename)` (raises if absent, hence the membership guard);
if `i == 0` return the previous day's listing's last element (`[-1]` raises on
an empty list, hence `getLast?`), else `files[i - 1]`. -/
def get_preceeding_file [DecidableEq α] (P : Provider α) (f : α) : Option α :=
  let t := P.name_to_date f
  let files := P.get_files (dayOf t)
  if f ∈ files then
    let i := files.indexOf f
    if i = 0 then
      (P.get_files (dayOf (t - secondsPerDay))).getLast?
    else
      files[i - 1]?
  else
    none

/-- Embeds `DataProvider.get_following_file`.  Source: symmetric to
`get_preceeding_file`; if `i == len(files) - 1` return the next day's
listing's first element (`[0]` raises on an empty list, hence `head?`),
else `files[i + 1]`. -/
def get_following_file [DecidableEq α] (P : Provider α) (f : α) : Option α :=
  let t := P.name_to_date f
  let files := P.get_files (dayOf t)
  if f ∈ files then
    let i := files.indexOf f
    if i = files.length - 1 then
      (P.get_files (dayOf (t + secondsPerDay))).head?
    else
      files[i + 1]?
  else
    none

/-- One loop iteration's `pos1` list: `[(name_to_date(f) - t1).total_seconds() > 0.0
for f in fs]` for the day listing `fs` of day `d`. -/
def dayPos1 (P : Provider α) (t1 d : Nat) : List Bool :=
  (P.get_files d).map fun f => decide (t1 < P.name_to_date f)

/-- One loop iteration's selected files: the source enumerates
`inds = [i for i, (p0, p1) in enumerate(zip(pos0, pos1)) if p0 and not p1]`
and takes `[fs[i] for i in inds]`, which equals filtering the listing by
`ts >= t0 and not (ts > t1)`. -/
def daySelect (P : Provider α) (t0 t1 d : Nat) : List α :=
  (P.get_files d).filter fun f =>
    decide (t0 ≤ P.name_to_date f) && !decide (t1 < P.name_to_date f)

/-- The day-advancing `while (t1 - t).total_seconds() > 0.0` loop of
`get_files_in_range`, with explicit fuel.  Returns the accumulated selected
files and the `pos1` list of the last executed iteration (`none` when the
loop body never ran, in which case the Python variable `pos1` is undefined).
The outer `none` means the fuel ran out before the guard failed; the
termination theorem shows `numIter` fuel always suffices. -/
def rangeLoop (P : Provider α) (t0 t1 : Nat) :
    Nat → Nat → Option (List Bool) → Option (List α × Option (List Bool))
  | 0, t, lastPos1 =>
      if t < t1 then none else some ([], lastPos1)
  | fuel + 1, t, lastPos1 =>
      if t < t1 then
        match rangeLoop P t0 t1 fuel (t + secondsPerDay) (some (dayPos1 P t1 (dayOf t))) with
        | none => none
        | some (rest, lp) => some (daySelect P t0 t1 (dayOf t) ++ rest, lp)
      else
        some ([], lastPos1)

/-- Number of iterations the day loop performs: the cursor starts at `t0` and
gains `86400` per iteration, so the guard fails after
`⌈(t1 - t0) / 86400⌉` steps. -/
def numIter (t0 t1 : Nat) : Nat := (t1 - t0 + (secondsPerDay - 1)) / secondsPerDay

/-- The `if t0_inclusive:` block after the loop: prepend
`get_preceeding_file(files[0])`.  `files[0]` on an empty list raises
`IndexError` and a failing `get_preceeding_file` propagates, hence the
`Option` plumbing. -/
def inclusiveStep [DecidableEq α] (P : Provider α) (t0_inclusive : Bool)
    (files0 : List α) : Option (List α) :=
  if t0_inclusive then
    match files0.head? with
    | none => none
    | some f0 =>
      match get_preceeding_file P f0 with
      | none => none
      | some fp => some (fp :: files0)
  else
    some files0

/-- The `if not pos1[-1] and not files == []:` block after the loop.
`pos1` is the last executed iteration's list: when the loop never ran the
name is undefined (`NameError`), and when the final day's listing was empty
`pos1[-1]` raises `IndexError`; both are `none`.  On success the block
best-effort appends `get_following_file(files[-1])`, swallowing any failure
(`try ... except: pass`). -/
def trailingStep [DecidableEq α] (P : Provider α) (lastPos1 : Option (List Bool))
    (files1 : List α) : Option (List α) :=
  match lastPos1 with
  | none => none
  | some pos1 =>
    match pos1.getLast? with
    | none => none
    | some b =>
      if !b && !(files1 = []) then
        match files1.getLast? with
        | none => some files1
        | some fl =>
          match get_following_file P fl with
          | none => some files1
          | some g => some (files1 ++ [g])
      else
        some files1

/-- Embeds `DataProvider.get_files_in_range`: run the day loop (with enough
fuel for its guard to fail, see the termination theorem), then the
`t0_inclusive` prepend, then the best-effort trailing append. -/
def get_files_in_range [DecidableEq α] (P : Provider α) (t0 t1 : Nat) (t0_inclusive : Bool) :
    Option (List α) :=
  match rangeLoop P t0 t1 (numIter t0 t1) t0 none with
  | none => none
  | some (files0, lastPos1) =>
    match inclusiveStep P t0_inclusive files0 with
    | none => none
    | some files1 => trailingStep P lastPos1 files1

/-- The candidate list of `get_file_by_date`: the previous day's listing
sliced by `[-1:]` (its last element, or nothing when empty) followed by the
whole listing of `t`'s own day. -/
def candidates (P : Provider α) (t : Nat) : List α :=
  (match (P.get_files (dayOf (t - secondsPerDay))).getLast? with
   | none => []
   | some x => [x]) ++ P.get_files (dayOf t)

/-- The `dts` array of `get_file_by_date`: signed second deltas
`(name_to_date(f) - t).total_seconds()` over the candidates. -/
def fbdDts (P : Provider α) (t : Nat) : List Int :=
  (candidates P t).map fun f => (P.name_to_date f : Int) - (t : Int)

/-- The `inds = np.argsort(dts)` array of `get_file_by_date`, modelled as a
sort of the index list `range n` ascending by delta.  `np.argsort`'s order
among tied deltas is unspecified; the stable `insertionSort` is one
determinization. -/
def fbdInds (P : Provider α) (t : Nat) : List Nat :=
  (List.range (candidates P t).length).insertionSort
    fun i j => (fbdDts P t).getD i 0 ≤ (fbdDts P t).getD j 0

/-- The `indices = np.where(dts[inds] < 0.0)[0]` array of `get_file_by_date`:
the sorted positions holding a negative delta, in increasing order. -/
def fbdIndices (P : Provider α) (t : Nat) : List Nat :=
  (List.range (fbdInds P t).length).filter
    fun k => (fbdDts P t).getD ((fbdInds P t).getD k 0) 0 < 0

/-- Embeds `DataProvider.get_file_by_date`: `ind` is `inds[indices[-1]]`, the
original index of the largest negative delta, or `len(dts) - 1` when no
delta is negative; the final `files[ind]` raises on an empty candidate list
(`Option`). -/
def get_file_by_date (P : Provider α) (t : Nat) : Option α :=
  (candidates P t)[match (fbdIndices P t).getLast? with
    | none => (candidates P t).length - 1
    | some k => (fbdInds P t).getD k 0]?

/-! ### Provider-specific construction and the FTP backend -/

/-- Python exceptions distinguished by the construction-time claims. -/
inductive PyError
  | valueError (msg : String)
  | attributeError (msg : String)
  deriving DecidableEq

/-- The `icare_products` dict: product name to path components. -/
def icare_products : List (String × List String) :=
  [("CloudSat_2b_GeoProf", ["SPACEBORNE", "CLOUDSAT", "2B-GEOPROF"]),
   ("CloudSat_1b_CPR", ["SPACEBORNE", "CLOUDSAT", "1B-CPR"]),
   ("CloudSat_MODIS_Aux", ["SPACEBORNE", "CLOUDSAT", "MODIS-AUX"]),
   ("CloudSat_ECMWF_Aux", ["SPACEBORNE", "CLOUDSAT", "ECMWF-AUX"])]

/-- The `copernicus_products` list of product-name strings. -/
def copernicus_products : List String :=
  ["reanalysis-era5-land",
   "reanalysis-era5-land-monthly-means",
   "reanalysis-era5-pressure-levels",
   "reanalysis-era5-pressure-levels-monthly-means",
   "reanalysis-era5-single-levels",
   "reanalysis-era5-single-levels-monthly-means"]

/-- The `ValueError` message of `IcareProvider.__init__`: only the first part
of the message is an f-string, so the product name is interpolated but the
literal text `\x7bavailable_products\x7d` is not. -/
def icareErrMsg (name : String) : String :=
  name ++ "  not a available from the ICARE data provider. Currently available products are:  \x7bavailable_products\x7d."

/-- Accessing `.keys()` on a Python `list` raises `AttributeError`; this is
the slip in `CopernicusProvider.__init__`'s unsupported-product branch, which
applies `copernicus_products.keys()` although `copernicus_products` is a list. -/
def list_keys (_l : List String) : Except PyError (List String) :=
  .error (.attributeError "list object has no attribute keys")

/-- A remote directory path on the ICARE server:
`os.path.join(product_path, str(year), date.strftime("%Y_%m_%d"))`.  For a
fixed product the string is determined by, and injective in, `(year, day)`,
so the path is modelled by the triple itself. -/
structure IcarePath where
  product_path : List String
  year : Nat
  day : Nat
  deriving DecidableEq

/-- The mutable state of an `IcareProvider` instance: the bound product's
path components and the per-path listing cache (a Python dict, modelled as an
association list where assignment of an absent key prepends the binding). -/
structure IcareState where
  product_name : String
  product_path : List String
  cache : List (IcarePath × List String)
  deriving DecidableEq

/-- Embeds `IcareProvider.__init__`: `if not product.__name__ in
icare_products: raise ValueError(...)`, else bind the product, set
`product_path = os.path.join(*icare_products[product.__name__])` and start
with an empty cache. -/
def IcareProvider.init (product_name : String) : Except PyError IcareState :=
  match icare_products.lookup product_name with
  | some path => .ok ⟨product_name, path, []⟩
  | none => .error (.valueError (icareErrMsg product_name))

/-- Embeds `CopernicusProvider.__init__`'s product check: when the product is
unsupported the source first evaluates `list(copernicus_products.keys())`,
which raises before the `raise ValueError(...)` line is reached.  The stored
fields (variables, domain normalization) are construction plumbing irrelevant
to the claims and are not modelled beyond the product name. -/
def CopernicusProvider.init (product_name : String) (_vars : List String)
    (_domain : Option (List String)) : Except PyError String :=
  if product_name ∈ copernicus_products then
    .ok product_name
  else
    match list_keys copernicus_products with
    | .error e => .error e
    | .ok _ => .error (.valueError (product_name ++ "  not a available from the Copernicus data provider."))

/-- Embeds `IcareProvider.__ftp_listing_to_list__`.  `remote` is the FTP
collaborator (`ftp.nlst()` after `cwd path`); the type-conversion argument
`t` is `str`, the identity on strings.  The last component counts the remote
listing round trips the call performs: a cached path is answered without
contacting the server, an uncached one costs one round trip and stores the
listing in the cache (`self.cache[path] = listing`). -/
def ftp_listing_to_list (remote : IcarePath → List String) (s : IcareState)
    (path : IcarePath) : List String × IcareState × Nat :=
  match s.cache.lookup path with
  | some listing => (listing, s, 0)
  | none =>
      let listing := remote path
      (listing, { s with cache := (path, listing) :: s.cache }, 1)

/-- Embeds `IcareProvider.get_files`: build the day's directory path, obtain
its listing through the cache, and keep the names whose last three characters
are `hdf` (`name[-3:] == "hdf"`). -/
def IcareProvider.get_files (remote : IcarePath → List String) (s : IcareState)
    (year day : Nat) : List String × IcareState × Nat :=
  let path : IcarePath := ⟨s.product_path, year, day⟩
  let r := ftp_listing_to_list remote s path
  (r.1.filter fun name => name.takeRight 3 = "hdf", r.2.1, r.2.2)

/-! ### Concrete providers used by counterexamples and witnesses

Filenames are natural numbers and `name_to_date` is the identity, so a
"filename" directly carries its decoded timestamp. -/

/-- A provider whose every day listing is empty. -/
def emptyP : Provider Nat := ⟨fun _ => [], id⟩

/-- A provider with a single file whose timestamp is 50000 (day 0). -/
def oneP : Provider Nat := ⟨fun d => if d = 0 then [50000] else [], id⟩

/-- A provider with day-0 files at 10000 and 80000. -/
def twoP : Provider Nat := ⟨fun d => if d = 0 then [10000, 80000] else [], id⟩

/-- A provider with day-1 files at 100000 and 136400. -/
def dayP : Provider Nat := ⟨fun d => if d = 1 then [100000, 136400] else [], id⟩

/-- A provider with day-1 files at 90000, 120000, 150000 and day-2 files at
180000 and 200000. -/
def witP : Provider Nat :=
  ⟨fun d => if d = 1 then [90000, 120000, 150000]
            else if d = 2 then [180000, 200000] else [], id⟩

/-- Concrete FTP collaborator for the cache witness. -/
def icareWitRemote : IcarePath → List String := fun _ => ["x.hdf", "y.txt"]

/-- Concrete instance state with an empty cache. -/
def icareWitState : IcareState :=
  ⟨"CloudSat_2b_GeoProf", ["SPACEBORNE", "CLOUDSAT", "2B-GEOPROF"], []⟩

/-- The state after the first `get_files` call of the cache witness. -/
def icareWitState1 : IcareState :=
  ⟨"CloudSat_2b_GeoProf", ["SPACEBORNE", "CLOUDSAT", "2B-GEOPROF"],
   [(⟨["SPACEBORNE", "CLOUDSAT", "2B-GEOPROF"], 2008, 12⟩, ["x.hdf", "y.txt"])]⟩

/-! ### Arithmetic and list helper lemmas -/

theorem dayOf_add_day (t : Nat) : dayOf (t + secondsPerDay) = dayOf t + 1 := by
  simp [dayOf, secondsPerDay, Nat.add_div_right]

theorem dayOf_sub_day {t : Nat} (h : secondsPerDay ≤ t) :
    dayOf (t - secondsPerDay) = dayOf t - 1 := by
  obtain ⟨m, rfl⟩ := Nat.exists_eq_add_of_le h
  rw [Nat.add_comm, Nat.add_sub_cancel]
  simp [dayOf, secondsPerDay, Nat.add_div_right]

theorem day_bounds (x : Nat) :
    secondsPerDay * dayOf x ≤ x ∧ x < secondsPerDay * (dayOf x + 1) := by
  have h1 := Nat.div_add_mod x secondsPerDay
  have h2 : x % secondsPerDay < secondsPerDay := Nat.mod_lt _ (by norm_num [secondsPerDay])
  unfold dayOf
  simp only [secondsPerDay] at h1 h2 ⊢
  omega

theorem le_add_numIter_mul (t0 t1 : Nat) : t1 ≤ t0 + numIter t0 t1 * secondsPerDay := by
  unfold numIter secondsPerDay
  have h1 := Nat.div_add_mod (t1 - t0 + 86399) 86400
  have h2 : (t1 - t0 + 86399) % 86400 < 86400 := Nat.mod_lt _ (by norm_num)
  omega

theorem mem_of_getLast?_eq {β : Type} {l : List β} {a : β} (h : l.getLast? = some a) :
    a ∈ l := by
  cases l with
  | nil => simp at h
  | cons x xs =>
    have he := List.getLast?_eq_getLast (x :: xs) (by simp)
    rw [he] at h
    obtain rfl : (x :: xs).getLast (by simp) = a := by simpa using h
    exact List.getLast_mem _

theorem pairwise_rel_getLast {β : Type} {R : β → β → Prop} (hrefl : ∀ b, R b b)
    {l : List β} (h : l.Pairwise R) {a : β} (ha : a ∈ l) {x : β}
    (hx : l.getLast? = some x) : R a x := by
  obtain ⟨i, hi, rfl⟩ := List.mem_iff_getElem.mp ha
  have hne : l ≠ [] := List.ne_nil_of_mem ha
  have hlen : 0 < l.length := List.length_pos.mpr hne
  rw [List.getLast?_eq_getElem?, List.getElem?_eq_getElem (by omega)] at hx
  obtain rfl : l[l.length - 1] = x := by simpa using hx
  rcases Nat.lt_or_ge i (l.length - 1) with hlt | hge
  · exact List.pairwise_iff_getElem.mp h i (l.length - 1) hi (by omega) hlt
  · have hieq : i = l.length - 1 := by omega
    subst hieq
    exact hrefl _

/-! ### Lemmas about the day-advancing loop -/

theorem rangeLoop_stop (P : Provider α) (t0 t1 fuel t : Nat) (lp : Option (List Bool))
    (h : t1 ≤ t) : rangeLoop P t0 t1 fuel t lp = some ([], lp) := by
  cases fuel <;> simp [rangeLoop, Nat.not_lt.mpr h]

theorem rangeLoop_isSome (P : Provider α) (t0 t1 : Nat) (fuel t : Nat)
    (lp : Option (List Bool)) (h : t1 ≤ t + fuel * secondsPerDay) :
    (rangeLoop P t0 t1 fuel t lp).isSome := by
  induction fuel generalizing t lp with
  | zero =>
    have : t1 ≤ t := by simpa using h
    simp [rangeLoop, Nat.not_lt.mpr this]
  | succ fuel ih =>
    by_cases hlt : t < t1
    · have h' : t1 ≤ (t + secondsPerDay) + fuel * secondsPerDay := by
        simp only [secondsPerDay] at h ⊢
        omega
      have := ih (t + secondsPerDay) (some (dayPos1 P t1 (dayOf t))) h'
      simp only [rangeLoop, if_pos hlt]
      cases hre : rangeLoop P t0 t1 fuel (t + secondsPerDay) (some (dayPos1 P t1 (dayOf t))) with
      | none => rw [hre] at this; simp at this
      | some v => cases v; simp
    · simp [rangeLoop, hlt]

theorem trailingStep_nil [DecidableEq α] (P : Provider α) (lp : Option (List Bool))
    (l : List α) (h : trailingStep P lp [] = some l) : l = [] := by
  cases lp with
  | none => simp [trailingStep] at h
  | some pos1 =>
    cases hb : pos1.getLast? with
    | none => simp [trailingStep, hb] at h
    | some b =>
      simp [trailingStep, hb] at h
      exact h

theorem trailingStep_decomp [DecidableEq α] (P : Provider α) (lp : Option (List Bool))
    (files1 l : List α) (h : trailingStep P lp files1 = some l) :
    ∃ trail, l = files1 ++ trail ∧ trail.length ≤ 1 ∧
      (trail = [] ∨ ∃ fl g, files1.getLast? = some fl ∧
        get_following_file P fl = some g ∧ trail = [g]) := by
  cases lp with
  | none => simp [trailingStep] at h
  | some pos1 =>
    cases hb : pos1.getLast? with
    | none => simp [trailingStep, hb] at h
    | some b =>
      simp only [trailingStep, hb] at h
      by_cases hc : (!b && !decide (files1 = [])) = true
      · rw [if_pos hc] at h
        cases hgl : files1.getLast? with
        | none =>
          simp only [hgl] at h
          exact ⟨[], by simpa using h.symm, by simp, Or.inl rfl⟩
        | some fl =>
          simp only [hgl] at h
          cases hfol : get_following_file P fl with
          | none =>
            simp only [hfol] at h
            exact ⟨[], by simpa using h.symm, by simp, Or.inl rfl⟩
          | some g =>
            simp only [hfol] at h
            exact ⟨[g], by simpa using h.symm, by simp, Or.inr ⟨fl, g, rfl, hfol, rfl⟩⟩
      · rw [if_neg hc] at h
        exact ⟨[], by simpa using h.symm, by simp, Or.inl rfl⟩

theorem trailingStep_cons [DecidableEq α] (P : Provider α) (lp : Option (List Bool))
    (fp : α) (files0 : List α) (hne : files0 ≠ []) :
    trailingStep P lp (fp :: files0) = (trailingStep P lp files0).map (fp :: ·) := by
  cases lp with
  | none => rfl
  | some pos1 =>
    cases hb : pos1.getLast? with
    | none => simp [trailingStep, hb]
    | some b =>
      cases b with
      | true => simp [trailingStep, hb]
      | false =>
        have hgl : (fp :: files0).getLast? = files0.getLast? := by
          cases files0 with
          | nil => exact absurd rfl hne
          | cons x xs => rfl
        have hc1 : (!false && !decide ((fp :: files0) = [])) = true := by simp
        have hc2 : (!false && !decide (files0 = [])) = true := by simp [hne]
        simp only [trailingStep, hb]
        rw [if_pos hc1, if_pos hc2, hgl]
        cases hgl2 : files0.getLast? with
        | none => simp
        | some fl =>
          cases hfol : get_following_file P fl with
          | none => simp [hfol]
          | some g => simp [hfol]

theorem dayOf_add_mul (t m : Nat) : dayOf (t + m * secondsPerDay) = dayOf t + m := by
  induction m with
  | zero => simp
  | succ m ih =>
    have : t + (m + 1) * secondsPerDay = (t + m * secondsPerDay) + secondsPerDay := by ring
    rw [this, dayOf_add_day, ih]
    omega

theorem rangeLoop_lastPos1 (P : Provider α) (t0 t1 : Nat) (fuel t : Nat)
    (lp : Option (List Bool)) (hfuel : t1 ≤ t + fuel * secondsPerDay) (hlt : t < t1) :
    ∃ files, rangeLoop P t0 t1 fuel t lp =
      some (files, some (dayPos1 P t1 (dayOf (t + (numIter t t1 - 1) * secondsPerDay)))) := by
  induction fuel generalizing t lp with
  | zero =>
    exfalso
    simp only [Nat.zero_mul, Nat.add_zero] at hfuel
    omega
  | succ fuel ih =>
    simp only [rangeLoop, if_pos hlt]
    by_cases hlt' : t + secondsPerDay < t1
    · have hfuel' : t1 ≤ (t + secondsPerDay) + fuel * secondsPerDay := by
        simp only [secondsPerDay] at hfuel ⊢
        omega
      obtain ⟨rest, hrest⟩ := ih (t + secondsPerDay) (some (dayPos1 P t1 (dayOf t))) hfuel' hlt'
      rw [hrest]
      refine ⟨daySelect P t0 t1 (dayOf t) ++ rest, ?_⟩
      have hday : t + secondsPerDay + (numIter (t + secondsPerDay) t1 - 1) * secondsPerDay =
          t + (numIter t t1 - 1) * secondsPerDay := by
        have hN : numIter t t1 = numIter (t + secondsPerDay) t1 + 1 := by
          unfold numIter
          simp only [secondsPerDay] at hlt' ⊢
          omega
        rw [hN]
        have hN1 : 1 ≤ numIter (t + secondsPerDay) t1 := by
          unfold numIter
          simp only [secondsPerDay] at hlt' ⊢
          omega
        simp only [secondsPerDay] at *
        omega
      rw [hday]
    · have hstop := rangeLoop_stop P t0 t1 fuel (t + secondsPerDay)
        (some (dayPos1 P t1 (dayOf t))) (by omega)
      rw [hstop]
      refine ⟨daySelect P t0 t1 (dayOf t) ++ [], ?_⟩
      have h1 : numIter t t1 = 1 := by
        unfold numIter
        simp only [secondsPerDay] at hlt hlt' ⊢
        omega
      rw [h1]
      simp

theorem rangeLoop_mem (P : Provider α) (t0 t1 : Nat) (fuel t : Nat)
    (lp : Option (List Bool)) (files : List α) (lpout : Option (List Bool))
    (h : rangeLoop P t0 t1 fuel t lp = some (files, lpout)) :
    ∀ f ∈ files, ∃ k, t + k * secondsPerDay < t1 ∧
      f ∈ daySelect P t0 t1 (dayOf (t + k * secondsPerDay)) := by
  induction fuel generalizing t lp files lpout with
  | zero =>
    by_cases hlt : t < t1
    · simp [rangeLoop, hlt] at h
    · simp [rangeLoop, hlt] at h
      obtain ⟨h1, _⟩ := h
      subst h1
      intro f hf
      exact absurd hf (List.not_mem_nil f)
  | succ fuel ih =>
    by_cases hlt : t < t1
    · simp only [rangeLoop, if_pos hlt] at h
      cases hrec : rangeLoop P t0 t1 fuel (t + secondsPerDay)
          (some (dayPos1 P t1 (dayOf t))) with
      | none => rw [hrec] at h; exact absurd h (by simp)
      | some v =>
        obtain ⟨rest, lp'⟩ := v
        rw [hrec] at h
        have hfe : daySelect P t0 t1 (dayOf t) ++ rest = files := by
          simpa using congrArg (fun o => o.map Prod.fst) h
        intro f hf
        rw [← hfe] at hf
        rcases List.mem_append.mp hf with hsel | hrest
        · exact ⟨0, by simpa using hlt, by simpa using hsel⟩
        · obtain ⟨k, hk, hksel⟩ := ih (t + secondsPerDay) _ rest lp' hrec f hrest
          refine ⟨k + 1, ?_, ?_⟩
          · have : t + (k + 1) * secondsPerDay = t + secondsPerDay + k * secondsPerDay := by
              ring
            rw [this]
            exact hk
          · have : t + (k + 1) * secondsPerDay = t + secondsPerDay + k * secondsPerDay := by
              ring
            rw [this]
            exact hksel
    · simp only [rangeLoop, if_neg hlt] at h
      obtain ⟨h1, _⟩ := Prod.mk.injEq .. ▸ (Option.some.injEq .. ▸ h)
      intro f hf
      rw [← h1] at hf
      exact absurd hf (List.not_mem_nil f)

theorem getLast?_filter_range (p : Nat → Bool) :
    ∀ (m k : Nat), ((List.range m).filter p).getLast? = some k →
      p k = true ∧ k < m ∧ ∀ j, k < j → j < m → p j = false := by
  intro m
  induction m with
  | zero =>
    intro k h
    simp at h
  | succ m ih =>
    intro k h
    rw [List.range_succ, List.filter_append] at h
    by_cases hp : p m = true
    · have he : List.filter p [m] = [m] := by simp [hp]
      rw [he, List.getLast?_concat] at h
      obtain rfl : m = k := by simpa using h
      exact ⟨hp, Nat.lt_succ_self m, fun j hj1 hj2 => absurd hj2 (by omega)⟩
    · have he : List.filter p [m] = [] := by
        simp only [List.filter]
        rw [Bool.not_eq_true] at hp
        rw [hp]
      rw [he, List.append_nil] at h
      obtain ⟨h1, h2, h3⟩ := ih k h
      refine ⟨h1, by omega, fun j hj1 hj2 => ?_⟩
      rcases Nat.lt_or_ge j m with hlt | hge
      · exact h3 j hj1 hlt
      · have hjm : j = m := by omega
        subst hjm
        simpa using hp

theorem get_following_ge [DecidableEq α] (P : Provider α) (f g : α)
    (hconsf1 : ∀ e ∈ P.get_files (dayOf (P.name_to_date f) + 1),
      dayOf (P.name_to_date e) = dayOf (P.name_to_date f) + 1)
    (hsortf : (P.get_files (dayOf (P.name_to_date f))).Pairwise
      (fun a b => P.name_to_date a ≤ P.name_to_date b))
    (hfg : get_following_file P f = some g) :
    P.name_to_date f ≤ P.name_to_date g := by
  by_cases hf : f ∈ P.get_files (dayOf (P.name_to_date f))
  case neg => simp [get_following_file, hf] at hfg
  simp only [get_following_file, if_pos hf] at hfg
  have hlt : (P.get_files (dayOf (P.name_to_date f))).indexOf f <
      (P.get_files (dayOf (P.name_to_date f))).length := List.indexOf_lt_length.mpr hf
  by_cases hlast : (P.get_files (dayOf (P.name_to_date f))).indexOf f =
      (P.get_files (dayOf (P.name_to_date f))).length - 1
  · rw [if_pos hlast, dayOf_add_day] at hfg
    cases hnext : P.get_files (dayOf (P.name_to_date f) + 1) with
    | nil => rw [hnext] at hfg; simp at hfg
    | cons b tl =>
      rw [hnext] at hfg
      have hbg : b = g := by simpa using hfg
      have hgmem : g ∈ P.get_files (dayOf (P.name_to_date f) + 1) := by
        rw [hnext, ← hbg]; exact List.mem_cons_self _ _
      have hgday : dayOf (P.name_to_date g) = dayOf (P.name_to_date f) + 1 :=
        hconsf1 g hgmem
      have hub := (day_bounds (P.name_to_date f)).2
      have hlb := (day_bounds (P.name_to_date g)).1
      rw [hgday] at hlb
      omega
  · rw [if_neg hlast] at hfg
    rw [List.getElem?_eq_some] at hfg
    obtain ⟨hlt1, hget⟩ := hfg
    have hgetf : (P.get_files (dayOf (P.name_to_date f)))[(P.get_files
        (dayOf (P.name_to_date f))).indexOf f] = f := List.getElem_indexOf hlt
    have hrel := List.pairwise_iff_getElem.mp hsortf _ _ hlt hlt1 (by omega)
    rw [hgetf, hget] at hrel
    exact hrel

theorem rangeLoop_pairwise (P : Provider α) (t0 t1 : Nat) (fuel t : Nat)
    (lp : Option (List Bool)) (files : List α) (lpout : Option (List Bool))
    (hcons : ∀ d, dayOf t ≤ d → d ≤ dayOf t1 →
      ∀ e ∈ P.get_files d, dayOf (P.name_to_date e) = d)
    (hsorted : ∀ d, dayOf t ≤ d → d ≤ dayOf t1 →
      (P.get_files d).Pairwise (fun a b => P.name_to_date a ≤ P.name_to_date b))
    (h : rangeLoop P t0 t1 fuel t lp = some (files, lpout)) :
    files.Pairwise (fun a b => P.name_to_date a ≤ P.name_to_date b) := by
  induction fuel generalizing t lp files lpout with
  | zero =>
    by_cases hlt : t < t1
    · simp [rangeLoop, hlt] at h
    · simp [rangeLoop, hlt] at h
      rw [h.1]
      exact List.Pairwise.nil
  | succ fuel ih =>
    by_cases hlt : t < t1
    · simp only [rangeLoop, if_pos hlt] at h
      cases hrec : rangeLoop P t0 t1 fuel (t + secondsPerDay)
          (some (dayPos1 P t1 (dayOf t))) with
      | none => rw [hrec] at h; exact absurd h (by simp)
      | some v =>
        obtain ⟨rest, lp'⟩ := v
        rw [hrec] at h
        have hfe : daySelect P t0 t1 (dayOf t) ++ rest = files := by
          simpa using congrArg (fun o => o.map Prod.fst) h
        rw [← hfe]
        have hd1 : dayOf t ≤ dayOf t1 := Nat.div_le_div_right (le_of_lt hlt)
        refine List.pairwise_append.mpr ⟨?_, ?_, ?_⟩
        · exact (hsorted (dayOf t) (le_refl _) hd1).sublist (List.filter_sublist _)
        · refine ih (t + secondsPerDay) _ rest lp' ?_ ?_ hrec
          · intro d hd hd2
            rw [dayOf_add_day] at hd
            exact hcons d (by omega) hd2
          · intro d hd hd2
            rw [dayOf_add_day] at hd
            exact hsorted d (by omega) hd2
        · intro a ha b hb
          have hamem : a ∈ P.get_files (dayOf t) := List.mem_of_mem_filter ha
          have haday : dayOf (P.name_to_date a) = dayOf t :=
            hcons (dayOf t) (le_refl _) hd1 a hamem
          obtain ⟨k, hk, hksel⟩ := rangeLoop_mem P t0 t1 fuel (t + secondsPerDay) _ rest lp'
            hrec b hb
          have hbmem : b ∈ P.get_files (dayOf (t + secondsPerDay + k * secondsPerDay)) :=
            List.mem_of_mem_filter hksel
          have hdbk : dayOf (t + secondsPerDay + k * secondsPerDay) = dayOf t + 1 + k := by
            have he : t + secondsPerDay + k * secondsPerDay =
                t + (k + 1) * secondsPerDay := by ring
            rw [he, dayOf_add_mul]
            omega
          have hdble : dayOf (t + secondsPerDay + k * secondsPerDay) ≤ dayOf t1 :=
            Nat.div_le_div_right (le_of_lt hk)
          have hbday : dayOf (P.name_to_date b) = dayOf t + 1 + k := by
            rw [← hdbk]
            exact hcons _ (by rw [hdbk]; omega) hdble b hbmem
          have hub := (day_bounds (P.name_to_date a)).2
          have hlb := (day_bounds (P.name_to_date b)).1
          rw [haday] at hub
          rw [hbday] at hlb
          have hmul : secondsPerDay * (dayOf t + 1) ≤ secondsPerDay * (dayOf t + 1 + k) :=
            Nat.mul_le_mul_left _ (by omega)
          omega
    · simp only [rangeLoop, if_neg hlt] at h
      have hfe : files = [] := by
        have := congrArg (fun o => o.map Prod.fst) h
        simpa using this.symm
      rw [hfe]
      exact List.Pairwise.nil

/-! ### Claim theorems -/

/-- C10: for every `t0 < t1` the day-advancing loop of `get_files_in_range`
terminates: the cursor starts at `t0` and gains exactly one day (86400 s) per
iteration, so with fuel `numIter t0 t1 = ⌈(t1 - t0) / 86400⌉` the guard
`(t1 - t).total_seconds() > 0` fails before the fuel is exhausted and the
loop returns a result. -/
theorem getFilesInRange_loop_terminates (P : Provider α) (t0 t1 : Nat)
    (_h : t0 < t1) : (rangeLoop P t0 t1 (numIter t0 t1) t0 none).isSome :=
  rangeLoop_isSome P t0 t1 _ _ _ (le_add_numIter_mul t0 t1)

/-- Witness for the loop-termination theorem at a concrete range. -/
theorem getFilesInRange_loop_terminates_witness :
    (0 : Nat) < 50000 ∧ (rangeLoop oneP 0 50000 (numIter 0 50000) 0 none).isSome :=
  ⟨by decide, getFilesInRange_loop_terminates oneP 0 50000 (by decide)⟩

/-- C4 (code bug): with every day listing empty and `0 = t0 < t1 = 50000`,
the loop selects nothing, but `get_files_in_range` does not return the empty
list: the post-loop check `pos1[-1]` indexes the final day's empty `pos1`
list and raises `IndexError` (modelled as `none`). -/
theorem getFilesInRange_empty_days_raises :
    get_files_in_range emptyP 0 50000 false = none ∧
    rangeLoop emptyP 0 50000 (numIter 0 50000) 0 none = some ([], some []) := by
  decide

/-- C1 counterexample: with `t0 = 0 < t1 = 50000` and a single day-0 file
whose decoded timestamp is exactly `t1`, the file is selected by the day loop
itself (it is the whole `daySelect` output, so it is not the best-effort
trailing entry), yet its timestamp is not strictly before `t1`. -/
theorem rangeSelect_includes_t1 :
    get_files_in_range oneP 0 50000 false = some [50000] ∧
    daySelect oneP 0 50000 0 = [50000] ∧
    oneP.name_to_date 50000 = 50000 ∧ ¬(50000 < 50000) ∧ (0 : Nat) < 50000 := by
  decide

/-- C3 counterexample: `t0 = 0`, `t1 = 50000`, day-0 listing
`[10000, 80000]`.  The final iterated day has an entry (80000) with timestamp
at/after `t1`, the accumulated list `[10000]` is non-empty, and the following
file of the last selected entry exists — yet nothing is appended, because the
code's condition `not pos1[-1]` requires the final day's last entry to be at
or before `t1`, the reverse of the claimed condition. -/
theorem trailingAppend_condition_reversed :
    get_files_in_range twoP 0 50000 false = some [10000] ∧
    80000 ∈ twoP.get_files 0 ∧ (50000 : Nat) ≤ 80000 ∧
    get_following_file twoP 10000 = some 80000 := by
  decide

/-- C2 counterexample: candidates `[100000, 136400]` on day 1, query
`t = 136400`.  The candidate 136400 has the latest timestamp `≤ t` (it equals
`t`), but the code's negativity test `dts < 0` is strict, so the earlier file
100000 is returned instead. -/
theorem fileByDate_excludes_exact_match :
    get_file_by_date dayP 136400 = some 100000 ∧
    136400 ∈ candidates dayP 136400 ∧
    dayP.name_to_date 136400 ≤ 136400 ∧
    dayP.name_to_date 100000 < dayP.name_to_date 136400 := by
  decide

/-- C8 (code bug): `IcareProvider.__init__` rejects an unsupported product
eagerly with a `ValueError` whose message names the product and performs no
network access, but the matching branch of `CopernicusProvider.__init__`
first evaluates `copernicus_products.keys()` on a list and therefore raises
`AttributeError` instead of the intended `ValueError`. -/
theorem unsupported_product_construction :
    IcareProvider.init "foo" = .error (.valueError (icareErrMsg "foo")) ∧
    (∃ pre post, icareErrMsg "foo" = pre ++ "foo" ++ post) ∧
    CopernicusProvider.init "foo" [] none =
      .error (.attributeError "list object has no attribute keys") ∧
    "foo" ∉ icare_products.map Prod.fst ∧ "foo" ∉ copernicus_products := by
  refine ⟨rfl, ⟨"", "  not a available from the ICARE data provider. Currently available products are:  \x7bavailable_products\x7d.", by decide⟩, rfl, by decide, by decide⟩

/-- C9: the FTP listing cache.  With the day's path not yet cached, the
first `get_files` call issues exactly one remote listing round trip and
stores the raw listing; the second call for the same `(year, day)` issues
none and returns the same filtered listing with the same state; and no
pre-existing cache entry is invalidated or overwritten. -/
theorem icare_get_files_cached (remote : IcarePath → List String)
    (s : IcareState) (year day : Nat) (r1 r2 : List String × IcareState × Nat)
    (h : s.cache.lookup ⟨s.product_path, year, day⟩ = none)
    (h1 : IcareProvider.get_files remote s year day = r1)
    (h2 : IcareProvider.get_files remote r1.2.1 year day = r2) :
    r1.2.2 = 1 ∧ r2.2.2 = 0 ∧ r2.1 = r1.1 ∧ r2.2.1 = r1.2.1 ∧
    ∀ p v, s.cache.lookup p = some v → r1.2.1.cache.lookup p = some v := by
  subst h1 h2
  refine ⟨?_, ?_, ?_, ?_, ?_⟩
  · simp [IcareProvider.get_files, ftp_listing_to_list, h]
  · simp [IcareProvider.get_files, ftp_listing_to_list, h, List.lookup]
  · simp [IcareProvider.get_files, ftp_listing_to_list, h, List.lookup]
  · simp [IcareProvider.get_files, ftp_listing_to_list, h, List.lookup]
  · intro p v hp
    have hne : p ≠ ⟨s.product_path, year, day⟩ := by
      intro he
      rw [he, h] at hp
      exact Option.noConfusion hp
    have hfalse : (p == (⟨s.product_path, year, day⟩ : IcarePath)) = false :=
      beq_eq_false_iff_ne.mpr hne
    simp [IcareProvider.get_files, ftp_listing_to_list, h, List.lookup, hfalse, hp]

/-- Witness for the cache theorem: a concrete remote and an empty cache. -/
theorem icare_get_files_cached_witness :
    (icareWitState.cache.lookup ⟨icareWitState.product_path, 2008, 12⟩ = none ∧
     IcareProvider.get_files icareWitRemote icareWitState 2008 12 =
       (["x.hdf"], icareWitState1, 1) ∧
     IcareProvider.get_files icareWitRemote icareWitState1 2008 12 =
       (["x.hdf"], icareWitState1, 0)) ∧
    ((["x.hdf"], icareWitState1, (1 : Nat)).2.2 = 1 ∧
     (["x.hdf"], icareWitState1, (0 : Nat)).2.2 = 0 ∧
     (["x.hdf"], icareWitState1, (0 : Nat)).1 = (["x.hdf"], icareWitState1, (1 : Nat)).1 ∧
     (["x.hdf"], icareWitState1, (0 : Nat)).2.1 = (["x.hdf"], icareWitState1, (1 : Nat)).2.1 ∧
     ∀ p v, icareWitState.cache.lookup p = some v →
       ((["x.hdf"], icareWitState1, (1 : Nat)).2.1).cache.lookup p = some v) :=
  ⟨⟨by decide, by decide, by decide⟩,
   icare_get_files_cached icareWitRemote icareWitState 2008 12
     (["x.hdf"], icareWitState1, 1) (["x.hdf"], icareWitState1, 0)
     (by decide) (by decide) (by decide)⟩

/-- C5: for a filename present in its own calendar day's listing at position
`i`, `get_preceeding_file` returns the entry at `i - 1` when `i > 0` and the
last entry of the previous calendar day's listing when `i = 0`;
symmetrically, `get_following_file` returns the entry at `i + 1` when `i` is
not the day's last position, and the first entry of the next calendar day's
listing when it is. -/
theorem adjacent_file_queries [DecidableEq α] (P : Provider α) (f : α) (i : Nat)
    (hf : f ∈ P.get_files (dayOf (P.name_to_date f)))
    (hi : (P.get_files (dayOf (P.name_to_date f))).indexOf f = i)
    (ht : secondsPerDay ≤ P.name_to_date f) :
    (i = 0 → get_preceeding_file P f =
      (P.get_files (dayOf (P.name_to_date f) - 1)).getLast?) ∧
    (0 < i → get_preceeding_file P f =
      (P.get_files (dayOf (P.name_to_date f)))[i - 1]?) ∧
    (i = (P.get_files (dayOf (P.name_to_date f))).length - 1 →
      get_following_file P f = (P.get_files (dayOf (P.name_to_date f) + 1)).head?) ∧
    (i ≠ (P.get_files (dayOf (P.name_to_date f))).length - 1 →
      get_following_file P f = (P.get_files (dayOf (P.name_to_date f)))[i + 1]?) := by
  subst hi
  refine ⟨?_, ?_, ?_, ?_⟩
  · intro h0
    simp [get_preceeding_file, if_pos hf, h0, dayOf_sub_day ht]
  · intro hpos
    have hne : ¬((P.get_files (dayOf (P.name_to_date f))).indexOf f = 0) := by omega
    simp only [get_preceeding_file, if_pos hf, if_neg hne]
  · intro hlast
    simp [get_following_file, if_pos hf, hlast, dayOf_add_day]
  · intro hne
    simp only [get_following_file, if_pos hf, if_neg hne]

/-- Witness for the adjacent-file theorem: the day-1 file 120000 of `witP`
sits at position 1 of its listing. -/
theorem adjacent_file_queries_witness :
    (120000 ∈ witP.get_files (dayOf (witP.name_to_date 120000)) ∧
     (witP.get_files (dayOf (witP.name_to_date 120000))).indexOf 120000 = 1 ∧
     secondsPerDay ≤ witP.name_to_date 120000) ∧
    ((1 = 0 → get_preceeding_file witP 120000 =
        (witP.get_files (dayOf (witP.name_to_date 120000) - 1)).getLast?) ∧
     (0 < 1 → get_preceeding_file witP 120000 =
        (witP.get_files (dayOf (witP.name_to_date 120000)))[1 - 1]?) ∧
     (1 = (witP.get_files (dayOf (witP.name_to_date 120000))).length - 1 →
        get_following_file witP 120000 =
          (witP.get_files (dayOf (witP.name_to_date 120000) + 1)).head?) ∧
     (1 ≠ (witP.get_files (dayOf (witP.name_to_date 120000))).length - 1 →
        get_following_file witP 120000 =
          (witP.get_files (dayOf (witP.name_to_date 120000)))[1 + 1]?)) :=
  ⟨⟨by decide, by decide, by decide⟩,
   adjacent_file_queries witP 120000 1 (by decide) (by decide) (by decide)⟩

/-- C6: with the two relevant day listings consistent (every listed file
decodes into the day it is listed under) and the home listing duplicate-free,
`get_preceeding_file` after `get_following_file` returns the original file
whenever the following-file lookup succeeds. -/
theorem follow_precede_roundtrip [DecidableEq α] (P : Provider α) (f g : α)
    (hconsD : ∀ e ∈ P.get_files (dayOf (P.name_to_date f)),
      dayOf (P.name_to_date e) = dayOf (P.name_to_date f))
    (hconsD1 : ∀ e ∈ P.get_files (dayOf (P.name_to_date f) + 1),
      dayOf (P.name_to_date e) = dayOf (P.name_to_date f) + 1)
    (hnodup : (P.get_files (dayOf (P.name_to_date f))).Nodup)
    (hfg : get_following_file P f = some g) :
    get_preceeding_file P g = some f := by
  by_cases hf : f ∈ P.get_files (dayOf (P.name_to_date f))
  case neg => simp [get_following_file, hf] at hfg
  simp only [get_following_file, if_pos hf] at hfg
  have hlt : (P.get_files (dayOf (P.name_to_date f))).indexOf f <
      (P.get_files (dayOf (P.name_to_date f))).length := List.indexOf_lt_length.mpr hf
  have hgetf : (P.get_files (dayOf (P.name_to_date f)))[(P.get_files
      (dayOf (P.name_to_date f))).indexOf f] = f := List.getElem_indexOf hlt
  by_cases hlast : (P.get_files (dayOf (P.name_to_date f))).indexOf f =
      (P.get_files (dayOf (P.name_to_date f))).length - 1
  · rw [if_pos hlast, dayOf_add_day] at hfg
    cases hnext : P.get_files (dayOf (P.name_to_date f) + 1) with
    | nil => rw [hnext] at hfg; simp at hfg
    | cons b tl =>
      rw [hnext] at hfg
      have hbg : b = g := by simpa using hfg
      have hgmem : g ∈ P.get_files (dayOf (P.name_to_date f) + 1) := by
        rw [hnext, ← hbg]; exact List.mem_cons_self _ _
      have hgday : dayOf (P.name_to_date g) = dayOf (P.name_to_date f) + 1 :=
        hconsD1 g hgmem
      have hspd : secondsPerDay ≤ P.name_to_date g := by
        have hb := (day_bounds (P.name_to_date g)).1
        rw [hgday] at hb
        have h2 : secondsPerDay * 1 ≤ secondsPerDay * (dayOf (P.name_to_date f) + 1) :=
          Nat.mul_le_mul_left _ (by omega)
        omega
      have hgmem' : g ∈ P.get_files (dayOf (P.name_to_date g)) := by
        rw [hgday]; exact hgmem
      have hidx : (P.get_files (dayOf (P.name_to_date g))).indexOf g = 0 := by
        rw [hgday, hnext, ← hbg]
        exact List.indexOf_cons_self b tl
      simp only [get_preceeding_file, if_pos hgmem']
      rw [if_pos hidx, dayOf_sub_day hspd, hgday, Nat.add_sub_cancel]
      rw [List.getLast?_eq_getElem?, ← hlast, List.getElem?_eq_getElem hlt, hgetf]
  · rw [if_neg hlast] at hfg
    rw [List.getElem?_eq_some] at hfg
    obtain ⟨hlt1, hget⟩ := hfg
    have hgmem : g ∈ P.get_files (dayOf (P.name_to_date f)) := by
      rw [← hget]; exact List.getElem_mem _
    have hgday : dayOf (P.name_to_date g) = dayOf (P.name_to_date f) := hconsD g hgmem
    have hgmem' : g ∈ P.get_files (dayOf (P.name_to_date g)) := by
      rw [hgday]; exact hgmem
    have hidx : (P.get_files (dayOf (P.name_to_date g))).indexOf g =
        (P.get_files (dayOf (P.name_to_date f))).indexOf f + 1 := by
      rw [hgday, ← hget]
      exact List.indexOf_getElem hnodup _ _
    have hidxne : ¬((P.get_files (dayOf (P.name_to_date g))).indexOf g = 0) := by
      rw [hidx]; omega
    simp only [get_preceeding_file, if_pos hgmem', if_neg hidxne]
    rw [hidx, hgday, Nat.add_sub_cancel]
    rw [List.getElem?_eq_getElem hlt, hgetf]

/-- C7: when the non-inclusive range call returns a non-empty list `l` with
first element `f` and `get_preceeding_file f` succeeds with `fp`, the
`t0_inclusive=True` call returns the same list with `fp` prepended. -/
theorem inclusive_prepends_preceeding [DecidableEq α] (P : Provider α)
    (t0 t1 : Nat) (l : List α) (f fp : α)
    (hl : get_files_in_range P t0 t1 false = some l)
    (hhead : l.head? = some f)
    (hp : get_preceeding_file P f = some fp) :
    get_files_in_range P t0 t1 true = some (fp :: l) := by
  unfold get_files_in_range at hl ⊢
  cases hloop : rangeLoop P t0 t1 (numIter t0 t1) t0 none with
  | none => rw [hloop] at hl; exact absurd hl (by simp)
  | some v =>
    obtain ⟨files0, lp⟩ := v
    rw [hloop] at hl
    have hl' : trailingStep P lp files0 = some l := hl
    have hne : files0 ≠ [] := by
      intro he
      subst he
      have := trailingStep_nil P lp l hl'
      subst this
      simp at hhead
    obtain ⟨trail, htr, _, _⟩ := trailingStep_decomp P lp files0 l hl'
    have hhead0 : files0.head? = some f := by
      rw [htr] at hhead
      cases files0 with
      | nil => exact absurd rfl hne
      | cons x xs => simpa using hhead
    have hstep : inclusiveStep P true files0 = some (fp :: files0) := by
      simp [inclusiveStep, hhead0, hp]
    show (match inclusiveStep P true files0 with
          | none => none
          | some files1 => trailingStep P lp files1) = some (fp :: l)
    rw [hstep]
    show trailingStep P lp (fp :: files0) = some (fp :: l)
    rw [trailingStep_cons P lp fp files0 hne, hl']
    rfl

/-- C2 (amended): among the candidates (the last file of the preceding
calendar day plus all files of `t`'s own day), `get_file_by_date t` returns
a candidate whose timestamp is strictly before `t` and maximal among such
candidates whenever one exists (the code's negativity test `dts < 0` is
strict, so a candidate with timestamp exactly `t` is not eligible); when
every candidate's timestamp is at or after `t` it returns the last candidate
in candidate order. -/
theorem fileByDate_latest_strictly_before (P : Provider α) (t : Nat)
    (hne : candidates P t ≠ []) :
    ∃ f, get_file_by_date P t = some f ∧ f ∈ candidates P t ∧
      ((∀ g ∈ candidates P t, t ≤ P.name_to_date g) →
        get_file_by_date P t = (candidates P t).getLast?) ∧
      ((∃ g ∈ candidates P t, P.name_to_date g < t) →
        P.name_to_date f < t ∧
        ∀ g ∈ candidates P t, P.name_to_date g < t →
          P.name_to_date g ≤ P.name_to_date f) := by
  have hn : 0 < (candidates P t).length := List.length_pos.mpr hne
  have hdlen : (fbdDts P t).length = (candidates P t).length := List.length_map _ _
  have hdval : ∀ i (h : i < (candidates P t).length),
      (fbdDts P t).getD i 0 = (P.name_to_date ((candidates P t)[i]) : Int) - (t : Int) := by
    intro i h
    rw [List.getD_eq_getElem _ 0 (by omega)]
    simp [fbdDts]
  have hperm : List.Perm (fbdInds P t) (List.range (candidates P t).length) :=
    List.perm_insertionSort _ _
  have hilen : (fbdInds P t).length = (candidates P t).length := by
    rw [hperm.length_eq, List.length_range]
  haveI htot : IsTotal Nat (fun i j => (fbdDts P t).getD i 0 ≤ (fbdDts P t).getD j 0) :=
    ⟨fun a b => le_total _ _⟩
  haveI htrans : IsTrans Nat (fun i j => (fbdDts P t).getD i 0 ≤ (fbdDts P t).getD j 0) :=
    ⟨fun a b c hab hbc => le_trans hab hbc⟩
  have hsortd : (fbdInds P t).Pairwise
      (fun i j => (fbdDts P t).getD i 0 ≤ (fbdDts P t).getD j 0) :=
    List.sorted_insertionSort _ _
  have hindlt : ∀ j ∈ fbdInds P t, j < (candidates P t).length := by
    intro j hj
    exact List.mem_range.mp (hperm.subset hj)
  have hindmem : ∀ j, j < (candidates P t).length → j ∈ fbdInds P t := by
    intro j hj
    exact hperm.mem_iff.mpr (List.mem_range.mpr hj)
  cases hind : (fbdIndices P t).getLast? with
  | none =>
    have hnil : fbdIndices P t = [] := List.getLast?_eq_none_iff.mp hind
    have hnonneg : ∀ j (hj : j < (candidates P t).length),
        ¬((fbdDts P t).getD j 0 < 0) := by
      intro j hj
      obtain ⟨kk, hkk, hkval⟩ := List.mem_iff_getElem.mp (hindmem j hj)
      have hfil := List.filter_eq_nil_iff.mp hnil kk (List.mem_range.mpr hkk)
      have hgd : (fbdInds P t).getD kk 0 = j := by
        rw [List.getD_eq_getElem _ 0 hkk, hkval]
      rw [hgd] at hfil
      simpa using hfil
    have hres : get_file_by_date P t = (candidates P t)[(candidates P t).length - 1]? := by
      simp only [get_file_by_date, hind]
    refine ⟨(candidates P t)[(candidates P t).length - 1],
      by rw [hres]; exact List.getElem?_eq_getElem (by omega),
      List.getElem_mem _, ?_, ?_⟩
    · intro _
      rw [hres, List.getLast?_eq_getElem?]
    · rintro ⟨g, hg, hglt⟩
      exfalso
      obtain ⟨j, hj, hgval⟩ := List.mem_iff_getElem.mp hg
      have hnn := hnonneg j hj
      rw [hdval j hj, hgval] at hnn
      omega
  | some kstar =>
    obtain ⟨hpk, hklt, hafter⟩ := getLast?_filter_range _ _ kstar hind
    have histar_lt : (fbdInds P t).getD kstar 0 < (candidates P t).length := by
      have hm : (fbdInds P t).getD kstar 0 ∈ fbdInds P t := by
        rw [List.getD_eq_getElem _ 0 hklt]
        exact List.getElem_mem _
      exact hindlt _ hm
    have hneg : (fbdDts P t).getD ((fbdInds P t).getD kstar 0) 0 < 0 := by
      simpa using hpk
    have hres : get_file_by_date P t =
        some ((candidates P t)[(fbdInds P t).getD kstar 0]) := by
      simp only [get_file_by_date, hind]
      exact List.getElem?_eq_getElem histar_lt
    have hflt :
        P.name_to_date ((candidates P t)[(fbdInds P t).getD kstar 0]) < t := by
      rw [hdval _ histar_lt] at hneg
      omega
    refine ⟨(candidates P t)[(fbdInds P t).getD kstar 0], hres,
      List.getElem_mem _, ?_, ?_⟩
    · intro hall
      exfalso
      have hge := hall ((candidates P t)[(fbdInds P t).getD kstar 0])
        (List.getElem_mem _)
      omega
    · intro _
      refine ⟨hflt, ?_⟩
      intro g hg hglt
      obtain ⟨j, hj, hgval⟩ := List.mem_iff_getElem.mp hg
      have hdj : (fbdDts P t).getD j 0 < 0 := by
        rw [hdval j hj, hgval]
        omega
      obtain ⟨kj, hkj, hkjval⟩ := List.mem_iff_getElem.mp (hindmem j hj)
      have hgdkj : (fbdInds P t).getD kj 0 = j := by
        rw [List.getD_eq_getElem _ 0 hkj, hkjval]
      rcases Nat.lt_trichotomy kj kstar with hlt | heq | hgt
      · have h0 := List.pairwise_iff_getElem.mp hsortd kj kstar hkj hklt hlt
        have h0' : (fbdDts P t).getD ((fbdInds P t)[kj]) 0 ≤
            (fbdDts P t).getD ((fbdInds P t)[kstar]) 0 := h0
        have hjj : (fbdDts P t).getD j 0 ≤
            (fbdDts P t).getD ((fbdInds P t).getD kstar 0) 0 := by
          rw [hkjval] at h0'
          rw [List.getD_eq_getElem (fbdInds P t) 0 hklt]
          exact h0'
        have hcalc : (P.name_to_date g : Int) - (t : Int) ≤
            (P.name_to_date ((candidates P t)[(fbdInds P t).getD kstar 0]) : Int)
              - (t : Int) := by
          calc (P.name_to_date g : Int) - (t : Int)
              = (fbdDts P t).getD j 0 := by rw [hdval j hj, hgval]
            _ ≤ (fbdDts P t).getD ((fbdInds P t).getD kstar 0) 0 := hjj
            _ = (P.name_to_date ((candidates P t)[(fbdInds P t).getD kstar 0])
                  : Int) - (t : Int) := hdval _ histar_lt
        omega
      · subst heq
        have hfg : (candidates P t)[(fbdInds P t).getD kj 0] = g := by
          simp only [hgdkj]
          exact hgval
        rw [hfg]
      · exfalso
        have hpkj := hafter kj hgt hkj
        have hpkj2 : decide ((fbdDts P t).getD ((fbdInds P t).getD kj 0) 0 < 0) = false :=
          hpkj
        rw [hgdkj] at hpkj2
        simp only [decide_eq_false_iff_not] at hpkj2
        omega

/-- Witness for the amended nearest-file theorem at the candidates of
`dayP` and `t = 136400`. -/
theorem fileByDate_latest_strictly_before_witness :
    (candidates dayP 136400 ≠ []) ∧
    (∃ f, get_file_by_date dayP 136400 = some f ∧ f ∈ candidates dayP 136400 ∧
      ((∀ g ∈ candidates dayP 136400, 136400 ≤ dayP.name_to_date g) →
        get_file_by_date dayP 136400 = (candidates dayP 136400).getLast?) ∧
      ((∃ g ∈ candidates dayP 136400, dayP.name_to_date g < 136400) →
        dayP.name_to_date f < 136400 ∧
        ∀ g ∈ candidates dayP 136400, dayP.name_to_date g < 136400 →
          dayP.name_to_date g ≤ dayP.name_to_date f)) :=
  ⟨by decide, fileByDate_latest_strictly_before dayP 136400 (by decide)⟩

/-- C1 (amended): with every day listing up to day `dayOf t1 + 1` sorted by
decoded timestamp and consistent with its day key, a successful
`get_files_in_range t0 t1` call (`t0_inclusive` false) returns the
loop-selected files followed by at most one trailing entry; every
loop-selected file's timestamp `ts` satisfies `t0 ≤ ts` and `ts ≤ t1`
(inclusive at `t1`), and the whole returned sequence is chronologically
non-decreasing. -/
theorem range_query_bounds_sorted [DecidableEq α] (P : Provider α) (t0 t1 : Nat)
    (l : List α)
    (hcons : ∀ d, d ≤ dayOf t1 + 1 → ∀ e ∈ P.get_files d,
      dayOf (P.name_to_date e) = d)
    (hsorted : ∀ d, d ≤ dayOf t1 + 1 →
      (P.get_files d).Pairwise (fun a b => P.name_to_date a ≤ P.name_to_date b))
    (hres : get_files_in_range P t0 t1 false = some l) :
    (∃ main trail, l = main ++ trail ∧ trail.length ≤ 1 ∧
       ∀ f ∈ main, t0 ≤ P.name_to_date f ∧ P.name_to_date f ≤ t1) ∧
    l.Pairwise (fun a b => P.name_to_date a ≤ P.name_to_date b) := by
  unfold get_files_in_range at hres
  cases hloop : rangeLoop P t0 t1 (numIter t0 t1) t0 none with
  | none => rw [hloop] at hres; exact absurd hres (by simp)
  | some v =>
    obtain ⟨files0, lp⟩ := v
    rw [hloop] at hres
    have hres' : trailingStep P lp files0 = some l := hres
    have hbounds : ∀ f ∈ files0, t0 ≤ P.name_to_date f ∧ P.name_to_date f ≤ t1 := by
      intro f hf
      obtain ⟨k, hk, hsel⟩ := rangeLoop_mem P t0 t1 _ _ _ _ _ hloop f hf
      have hfl := List.mem_filter.mp hsel
      have hp := hfl.2
      simp only [Bool.and_eq_true, decide_eq_true_eq, Bool.not_eq_true',
        decide_eq_false_iff_not] at hp
      exact ⟨hp.1, by omega⟩
    have hpar0 : files0.Pairwise (fun a b => P.name_to_date a ≤ P.name_to_date b) := by
      refine rangeLoop_pairwise P t0 t1 _ _ _ _ _ ?_ ?_ hloop
      · intro d h1 h2
        exact hcons d (by omega)
      · intro d h1 h2
        exact hsorted d (by omega)
    obtain ⟨trail, htr, hlen, hprov⟩ := trailingStep_decomp P lp files0 l hres'
    refine ⟨⟨files0, trail, htr, hlen, hbounds⟩, ?_⟩
    rcases hprov with rfl | ⟨fl, g, hfl, hfol, rfl⟩
    · rw [htr]
      simpa using hpar0
    · rw [htr]
      refine List.pairwise_append.mpr ⟨hpar0, by simp, ?_⟩
      intro a ha b hb
      have hbg : b = g := by simpa using hb
      rw [hbg]
      have hflmem : fl ∈ files0 := mem_of_getLast?_eq hfl
      obtain ⟨k, hk, hsel⟩ := rangeLoop_mem P t0 t1 _ _ _ _ _ hloop fl hflmem
      have hflmem2 : fl ∈ P.get_files (dayOf (t0 + k * secondsPerDay)) :=
        List.mem_of_mem_filter hsel
      have hdk : dayOf (t0 + k * secondsPerDay) ≤ dayOf t1 :=
        Nat.div_le_div_right (le_of_lt hk)
      have hflday : dayOf (P.name_to_date fl) = dayOf (t0 + k * secondsPerDay) :=
        hcons _ (by omega) fl hflmem2
      have hflg : P.name_to_date fl ≤ P.name_to_date g := by
        refine get_following_ge P fl g ?_ ?_ hfol
        · rw [hflday]
          exact hcons _ (by omega)
        · rw [hflday]
          exact hsorted _ (by omega)
      have hafl : P.name_to_date a ≤ P.name_to_date fl :=
        @pairwise_rel_getLast α (fun a b => P.name_to_date a ≤ P.name_to_date b)
          (fun b => le_refl _) _ hpar0 a ha fl hfl
      exact le_trans hafl hflg

/-- Witness for the amended range-query theorem at a concrete range of
`witP`. -/
theorem range_query_bounds_sorted_witness :
    ((∀ d, d ≤ dayOf 172800 + 1 → ∀ e ∈ witP.get_files d,
        dayOf (witP.name_to_date e) = d) ∧
     (∀ d, d ≤ dayOf 172800 + 1 →
        (witP.get_files d).Pairwise (fun a b => witP.name_to_date a ≤ witP.name_to_date b)) ∧
     get_files_in_range witP 100000 172800 false = some [120000, 150000, 180000]) ∧
    ((∃ main trail, ([120000, 150000, 180000] : List Nat) = main ++ trail ∧
        trail.length ≤ 1 ∧
        ∀ f ∈ main, 100000 ≤ witP.name_to_date f ∧ witP.name_to_date f ≤ 172800) ∧
     ([120000, 150000, 180000] : List Nat).Pairwise
       (fun a b => witP.name_to_date a ≤ witP.name_to_date b)) :=
  ⟨⟨by decide, by decide, by decide⟩,
   range_query_bounds_sorted witP 100000 172800 [120000, 150000, 180000]
     (by decide) (by decide) (by decide)⟩

/-- C3 (amended): with `t0 < t1`, the final iterated day's listing sorted and
non-empty, and the loop yielding `files0`, the trailing entry is
append-attempted exactly when no entry of the final day is strictly after
`t1` (i.e. its last entry is at or before `t1`) and `files0` is non-empty;
the append is best-effort — when `get_following_file` fails the accumulated
list is still returned. -/
theorem trailing_append_characterization [DecidableEq α] (P : Provider α)
    (t0 t1 : Nat) (files0 : List α) (lp : Option (List Bool))
    (h01 : t0 < t1)
    (hloop : rangeLoop P t0 t1 (numIter t0 t1) t0 none = some (files0, lp))
    (hsorted : (P.get_files (dayOf (t0 + (numIter t0 t1 - 1) * secondsPerDay))).Pairwise
      (fun a b => P.name_to_date a ≤ P.name_to_date b))
    (hne : P.get_files (dayOf (t0 + (numIter t0 t1 - 1) * secondsPerDay)) ≠ []) :
    get_files_in_range P t0 t1 false =
      some (if (∀ e ∈ P.get_files (dayOf (t0 + (numIter t0 t1 - 1) * secondsPerDay)),
                  P.name_to_date e ≤ t1) ∧ files0 ≠ []
            then files0 ++ (match files0.getLast? with
                            | none => []
                            | some fl => (get_following_file P fl).toList)
            else files0) := by
  obtain ⟨files', hloop'⟩ := rangeLoop_lastPos1 P t0 t1 (numIter t0 t1) t0 none
    (le_add_numIter_mul t0 t1) h01
  rw [hloop] at hloop'
  obtain ⟨hfe, hlpe⟩ : files0 = files' ∧
      lp = some (dayPos1 P t1 (dayOf (t0 + (numIter t0 t1 - 1) * secondsPerDay))) := by
    have h1 := congrArg (fun o => o.map Prod.fst) hloop'
    have h2 := congrArg (fun o => o.map Prod.snd) hloop'
    simp at h1 h2
    exact ⟨h1, h2⟩
  subst hlpe
  obtain ⟨lastE, hlast⟩ : ∃ x,
      (P.get_files (dayOf (t0 + (numIter t0 t1 - 1) * secondsPerDay))).getLast? = some x := by
    cases hl : (P.get_files (dayOf (t0 + (numIter t0 t1 - 1) * secondsPerDay))).getLast? with
    | none => exact absurd (List.getLast?_eq_none_iff.mp hl) hne
    | some x => exact ⟨x, rfl⟩
  have hlastmem : lastE ∈ P.get_files (dayOf (t0 + (numIter t0 t1 - 1) * secondsPerDay)) :=
    mem_of_getLast?_eq hlast
  have hposlast : (dayPos1 P t1 (dayOf (t0 + (numIter t0 t1 - 1) * secondsPerDay))).getLast? =
      some (decide (t1 < P.name_to_date lastE)) := by
    unfold dayPos1
    rw [List.getLast?_map, hlast]
    rfl
  have hiff : (∀ e ∈ P.get_files (dayOf (t0 + (numIter t0 t1 - 1) * secondsPerDay)),
      P.name_to_date e ≤ t1) ↔ P.name_to_date lastE ≤ t1 := by
    constructor
    · intro hall
      exact hall lastE hlastmem
    · intro hl e he
      exact le_trans (@pairwise_rel_getLast α
        (fun a b => P.name_to_date a ≤ P.name_to_date b)
        (fun b => le_refl _) _ hsorted e he lastE hlast) hl
  unfold get_files_in_range
  rw [hloop]
  show trailingStep P (some (dayPos1 P t1 (dayOf (t0 + (numIter t0 t1 - 1) * secondsPerDay))))
      files0 = _
  simp only [trailingStep, hposlast]
  by_cases hcase : t1 < P.name_to_date lastE
  · have hc : (!decide (t1 < P.name_to_date lastE) && !decide (files0 = [])) = false := by
      simp [hcase]
    rw [hc]
    have hnotall : ¬((∀ e ∈ P.get_files (dayOf (t0 + (numIter t0 t1 - 1) * secondsPerDay)),
        P.name_to_date e ≤ t1) ∧ files0 ≠ []) := by
      rintro ⟨hall, -⟩
      exact absurd (hall lastE hlastmem) (Nat.not_le.mpr hcase)
    rw [if_neg hnotall]
    simp
  · by_cases hf0 : files0 = []
    · subst hf0
      have hc : (!decide (t1 < P.name_to_date lastE) && !decide (([] : List α) = [])) =
          false := by simp
      rw [hc]
      have hnotall : ¬((∀ e ∈ P.get_files (dayOf (t0 + (numIter t0 t1 - 1) * secondsPerDay)),
          P.name_to_date e ≤ t1) ∧ ([] : List α) ≠ []) := by
        rintro ⟨-, hcontra⟩
        exact hcontra rfl
      rw [if_neg hnotall]
      simp
    · have hc : (!decide (t1 < P.name_to_date lastE) && !decide (files0 = [])) = true := by
        simp [hcase, hf0]
      rw [hc]
      have hall : (∀ e ∈ P.get_files (dayOf (t0 + (numIter t0 t1 - 1) * secondsPerDay)),
          P.name_to_date e ≤ t1) ∧ files0 ≠ [] := ⟨hiff.mpr (Nat.not_lt.mp hcase), hf0⟩
      rw [if_pos hall]
      obtain ⟨fl, hfl⟩ : ∃ x, files0.getLast? = some x := by
        cases hl : files0.getLast? with
        | none => exact absurd (List.getLast?_eq_none_iff.mp hl) hf0
        | some x => exact ⟨x, rfl⟩
      rw [hfl]
      cases hfol : get_following_file P fl with
      | none => simp [hfol]
      | some g => simp [hfol]

/-- Witness for the trailing-append characterization at a concrete range. -/
theorem trailing_append_characterization_witness :
    ((86400 : Nat) < 172800 ∧
     rangeLoop witP 86400 172800 (numIter 86400 172800) 86400 none =
       some ([90000, 120000, 150000], some [false, false, false]) ∧
     (witP.get_files (dayOf (86400 + (numIter 86400 172800 - 1) * secondsPerDay))).Pairwise
       (fun a b => witP.name_to_date a ≤ witP.name_to_date b) ∧
     witP.get_files (dayOf (86400 + (numIter 86400 172800 - 1) * secondsPerDay)) ≠ []) ∧
    get_files_in_range witP 86400 172800 false =
      some (if (∀ e ∈ witP.get_files (dayOf (86400 + (numIter 86400 172800 - 1) * secondsPerDay)),
                  witP.name_to_date e ≤ 172800) ∧ ([90000, 120000, 150000] : List Nat) ≠ []
            then [90000, 120000, 150000] ++
              (match ([90000, 120000, 150000] : List Nat).getLast? with
               | none => []
               | some fl => (get_following_file witP fl).toList)
            else [90000, 120000, 150000]) :=
  ⟨⟨by decide, by decide, by decide, by decide⟩,
   trailing_append_characterization witP 86400 172800 [90000, 120000, 150000]
     (some [false, false, false]) (by decide) (by decide) (by decide) (by decide)⟩

/-- Witness for the inclusive-prepend theorem at a concrete range of `witP`. -/
theorem inclusive_prepends_preceeding_witness :
    (get_files_in_range witP 100000 172800 false = some [120000, 150000, 180000] ∧
     [120000, 150000, 180000].head? = some 120000 ∧
     get_preceeding_file witP 120000 = some 90000) ∧
    get_files_in_range witP 100000 172800 true =
      some (90000 :: [120000, 150000, 180000]) :=
  ⟨⟨by decide, by decide, by decide⟩,
   inclusive_prepends_preceeding witP 100000 172800 [120000, 150000, 180000]
     120000 90000 (by decide) (by decide) (by decide)⟩

/-- Witness for the round-trip theorem: following 150000 (last of day 1 in
`witP`) gives 180000 (first of day 2), and preceding 180000 gives back
150000. -/
theorem follow_precede_roundtrip_witness :
    ((∀ e ∈ witP.get_files (dayOf (witP.name_to_date 150000)),
        dayOf (witP.name_to_date e) = dayOf (witP.name_to_date 150000)) ∧
     (∀ e ∈ witP.get_files (dayOf (witP.name_to_date 150000) + 1),
        dayOf (witP.name_to_date e) = dayOf (witP.name_to_date 150000) + 1) ∧
     (witP.get_files (dayOf (witP.name_to_date 150000))).Nodup ∧
     get_following_file witP 150000 = some 180000) ∧
    get_preceeding_file witP 180000 = some 150000 :=
  ⟨⟨by decide, by decide, by decide, by decide⟩,
   follow_precede_roundtrip witP 150000 180000 (by decide) (by decide) (by decide) (by decide)⟩

end Pansat
